import Mathlib

/-
Verification development for the PhiFlow struct core: the generic container
abstraction for hierarchical named data, with its polymorphic map/foreach
traversal engine, path-aware Trace objects, validity-mode controller and
copy-with update engine.  The repository material under src/ is the
documentation notebook (documentation/Structs.ipynb); the engine itself
(phi/struct) is not part of the available sources, so every operational
definition below is modelled from the specification and checked against the
concrete inputs/outputs recorded in the notebook.
-/

/-- A leaf value: an atomic value the engine never decomposes.  Leaves are
opaque to the core; integers and strings suffice for all recorded examples. -/
inductive Leaf where
  | int : Int → Leaf
  | str : String → Leaf
deriving DecidableEq

/-- A key addressing a child inside a composite: an integer index for ordered
composites, a string for keyed and declared composites. -/
inductive Key where
  | index : Nat → Key
  | name : String → Key
deriving DecidableEq

/-- The result of classification: leaf or one of the recognized composite
shapes. -/
inductive CompositeKind where
  | Leaf : CompositeKind
  | OrderedComposite : CompositeKind
  | KeyedComposite : CompositeKind
  | DeclaredComposite : CompositeKind
deriving DecidableEq

/-- The kind of a declared field: a data-holding attribute (participates in
data traversal) or a metadata property (excluded unless requested). -/
inductive FieldKind where
  | attr : FieldKind
  | prop : FieldKind
deriving DecidableEq

mutual
/-- Modelled from the spec: the value universe of the struct core
(phi/struct is not under src/).  A value is a leaf or one of the recognized
composite shapes: list, tuple, object array (all ordered), string-keyed dict,
or an instance of a declared composite type holding named fields in
declaration order. -/
inductive Value where
  | leaf : Leaf → Value
  | list : ValueList → Value
  | tuple : ValueList → Value
  | objArray : ValueList → Value
  | dict : EntryList → Value
  | declared : String → EntryList → Value
/-- The ordered children of an ordered composite. -/
inductive ValueList where
  | nil : ValueList
  | cons : Value → ValueList → ValueList
/-- The ordered named entries of a keyed or declared composite. -/
inductive EntryList where
  | nil : EntryList
  | cons : String → Value → EntryList → EntryList
end

/-- Conversion of the ordered children into a standard list, used to state
theorems with standard list vocabulary. -/
def ValueList.toList : ValueList → List Value
  | ValueList.nil => []
  | ValueList.cons c rest => c :: rest.toList

/-- Conversion of named entries into a standard association list. -/
def EntryList.toList : EntryList → List (String × Value)
  | EntryList.nil => []
  | EntryList.cons n v rest => (n, v) :: rest.toList

/-- Build ordered children from a standard list. -/
def ValueList.ofList : List Value → ValueList
  | [] => ValueList.nil
  | c :: rest => ValueList.cons c (ValueList.ofList rest)

/-- Build named entries from a standard association list. -/
def EntryList.ofList : List (String × Value) → EntryList
  | [] => EntryList.nil
  | (n, v) :: rest => EntryList.cons n v (EntryList.ofList rest)

/-- Modelled from the spec: a Trace is a path-aware handle built during
traversal, holding the visited value, its key (none for the root) and its
parent trace (none for the root).  The optional key/parent pair is fused into
the two constructors. -/
inductive Trace where
  | root : Value → Trace
  | child : Value → Key → Trace → Trace

/-- The value held by a trace node. -/
def Trace.value : Trace → Value
  | Trace.root v => v
  | Trace.child v _ _ => v

/-- The key under which the traced value is stored in its parent; none for
the root. -/
def Trace.key : Trace → Option Key
  | Trace.root _ => none
  | Trace.child _ k _ => some k

/-- The parent trace; none for the root. -/
def Trace.parent : Trace → Option Trace
  | Trace.root _ => none
  | Trace.child _ _ p => some p

/-- Render one key: numeric keys as numerals, string keys verbatim. -/
def Key.render : Key → String
  | Key.index i => toString i
  | Key.name s => s

/-- The ordered sequence of keys from the root down to this node. -/
def Trace.keys : Trace → List Key
  | Trace.root _ => []
  | Trace.child _ k p => p.keys ++ [k]

/-- Modelled from the spec: Trace.path renders the key chain from root to
this node as a dot-separated string, numeric keys rendered as numerals. -/
def Trace.path (t : Trace) : String :=
  String.intercalate (".") (t.keys.map Key.render)

/-- The optional key/parent context under which a node is visited: none for
the root, otherwise the key and the parent trace. -/
def Trace.ofCtx (v : Value) : Option (Key × Trace) → Trace
  | none => Trace.root v
  | some (k, p) => Trace.child v k p

/-- Modelled from the spec: a field validator
(owner, proposed value) -> accepted value, which may also reject.  The owner
is not consulted by any recorded validator, so it is elided; rejection is
the none result. -/
def Validator : Type := Value → Option Value

/-- Modelled from the spec: one declared field: unique name, kind
(attribute or property) and its validator. -/
structure FieldDecl where
  name : String
  kind : FieldKind
  validator : Validator

/-- Modelled from the spec: a declared composite type: its name and its
fields in declaration order. -/
structure StructType where
  name : String
  fields : List FieldDecl

/-- Modelled from the spec: the field descriptor registry, mapping a declared
type name to its registered declaration. -/
def Registry : Type := String → Option StructType

/-- The empty registry: no declared composite types. -/
def emptyReg : Registry := fun _ => none

/-- Modelled from the spec: the type classifier.  Ordered sequences, fixed
tuples and object arrays are OrderedComposite; string-keyed mappings are
KeyedComposite; a value whose type has registered field declarations is
DeclaredComposite; everything else, including an unregistered declared value,
defaults to Leaf.  Classification is total and never errors. -/
def classify (reg : Registry) : Value → CompositeKind
  | Value.leaf _ => CompositeKind.Leaf
  | Value.list _ => CompositeKind.OrderedComposite
  | Value.tuple _ => CompositeKind.OrderedComposite
  | Value.objArray _ => CompositeKind.OrderedComposite
  | Value.dict _ => CompositeKind.KeyedComposite
  | Value.declared tyName _ =>
    match reg tyName with
    | some _ => CompositeKind.DeclaredComposite
    | none => CompositeKind.Leaf

/-- True exactly on the Leaf classification result. -/
def isLeafKind : CompositeKind → Bool
  | CompositeKind.Leaf => true
  | _ => false

/-- A node is treated as a leaf when it classifies as Leaf or when the
caller-supplied leaf condition holds on it. -/
def isLeafNode (reg : Registry) (lc : Value → Bool) (v : Value) : Bool :=
  isLeafKind (classify reg v) || lc v

/-- True exactly on leaf constructors; used to state theorems about
structures whose children are plain leaves. -/
def isLeafValue : Value → Bool
  | Value.leaf _ => true
  | _ => false

/-- Modelled from the spec: the process-wide validity context, a boolean
stack whose top says whether field validation is currently active. -/
def ValidityContext : Type := List Bool

/-- Whether validation is active: the top of the stack, or true for the
empty stack (default process state: validation enabled). -/
def validationEnabled (ctx : ValidityContext) : Bool := ctx.headD true

/-- Modelled from the spec: entering a struct.anytype() permissive scope
pushes validation-disabled onto the validity stack. -/
def anytype (ctx : ValidityContext) : ValidityContext := false :: ctx

/-- Modelled from the spec: leaving a scope pops one level, restoring the
prior state on every exit path. -/
def exitScope (ctx : ValidityContext) : ValidityContext := ctx.tail

/-- Run one field's validator on a proposed value when validation is active;
when validation is disabled the proposed value is accepted unmodified.  Every
validation performed by construction, map reconstruction and copy-with goes
through this single gate. -/
def applyValidator (valid : Bool) (d : FieldDecl) (v : Value) :
    Except String Value :=
  if valid then
    match d.validator v with
    | some v2 => Except.ok v2
    | none => Except.error ("ValidationError: field " ++ d.name)
  else Except.ok v

/-- Look a name up in an association list of proposed values (constructor
arguments or copy-with updates); first binding wins. -/
def lookupArg : List (String × Value) → String → Option Value
  | [], _ => none
  | (m, w) :: rest, n => if m == n then some w else lookupArg rest n

/-- The option record threaded through one traversal: the registry, whether
validation is active, whether traversal recurses into composite children,
the leaf-condition predicate and whether properties are included. -/
structure MapConfig where
  reg : Registry
  valid : Bool
  recursive : Bool
  leafCondition : Value → Bool
  includeProps : Bool

mutual
/-- Modelled from the spec: the traversal engine map(f, root, ...)
(phi/struct/functions.py is not under src/).  A node that classifies as Leaf,
or on which the leaf condition holds, is passed to f (wrapped in its Trace)
and the result returned directly.  Otherwise the children are visited in
declaration/index order and reassembled into a structure of the same shape;
for a declared composite, properties are carried over untouched unless
included, and each attribute's validator runs on the newly assembled value
when validation is active, a rejection aborting the entire call. -/
def mapCore (cfg : MapConfig) (f : Trace → Value) (v : Value)
    (ctx : Option (Key × Trace)) : Except String Value :=
  if isLeafNode cfg.reg cfg.leafCondition v then
    Except.ok (f (Trace.ofCtx v ctx))
  else
    match v with
    | Value.leaf l => Except.ok (f (Trace.ofCtx (Value.leaf l) ctx))
    | Value.list items =>
      match mapList cfg f (Trace.ofCtx (Value.list items) ctx) items 0 with
      | Except.error e => Except.error e
      | Except.ok out => Except.ok (Value.list out)
    | Value.tuple items =>
      match mapList cfg f (Trace.ofCtx (Value.tuple items) ctx) items 0 with
      | Except.error e => Except.error e
      | Except.ok out => Except.ok (Value.tuple out)
    | Value.objArray items =>
      match mapList cfg f (Trace.ofCtx (Value.objArray items) ctx) items 0 with
      | Except.error e => Except.error e
      | Except.ok out => Except.ok (Value.objArray out)
    | Value.dict entries =>
      match mapDict cfg f (Trace.ofCtx (Value.dict entries) ctx) entries with
      | Except.error e => Except.error e
      | Except.ok out => Except.ok (Value.dict out)
    | Value.declared tyName fields =>
      match cfg.reg tyName with
      | none => Except.ok (f (Trace.ofCtx (Value.declared tyName fields) ctx))
      | some ty =>
        match mapFields cfg f (Trace.ofCtx (Value.declared tyName fields) ctx)
            ty fields with
        | Except.error e => Except.error e
        | Except.ok out => Except.ok (Value.declared tyName out)
/-- Visit the children of an ordered composite, index keys counting up from
i.  When recursive, each child is mapped fully; otherwise f is applied to the
child as a single unit, without inspecting whether it is composite. -/
def mapList (cfg : MapConfig) (f : Trace → Value) (t : Trace) :
    ValueList → Nat → Except String ValueList
  | ValueList.nil, _ => Except.ok ValueList.nil
  | ValueList.cons c rest, i =>
    match (if cfg.recursive then mapCore cfg f c (some (Key.index i, t))
           else Except.ok (f (Trace.child c (Key.index i) t))) with
    | Except.error e => Except.error e
    | Except.ok v =>
      match mapList cfg f t rest (i + 1) with
      | Except.error e => Except.error e
      | Except.ok rest2 => Except.ok (ValueList.cons v rest2)
/-- Visit the entries of a keyed composite in order, keys being the entry
names. -/
def mapDict (cfg : MapConfig) (f : Trace → Value) (t : Trace) :
    EntryList → Except String EntryList
  | EntryList.nil => Except.ok EntryList.nil
  | EntryList.cons n v rest =>
    match (if cfg.recursive then mapCore cfg f v (some (Key.name n, t))
           else Except.ok (f (Trace.child v (Key.name n) t))) with
    | Except.error e => Except.error e
    | Except.ok v2 =>
      match mapDict cfg f t rest with
      | Except.error e => Except.error e
      | Except.ok rest2 => Except.ok (EntryList.cons n v2 rest2)
/-- Visit the fields of a declared composite in declaration order.  A
property is carried over untouched unless properties are included; an
attribute's validator runs on the new value when validation is active.  A
field name with no registered declaration is carried over untouched. -/
def mapFields (cfg : MapConfig) (f : Trace → Value) (t : Trace)
    (ty : StructType) : EntryList → Except String EntryList
  | EntryList.nil => Except.ok EntryList.nil
  | EntryList.cons n v rest =>
    match (match ty.fields.find? (fun d => d.name == n) with
           | none => Except.ok v
           | some d =>
             match d.kind with
             | FieldKind.prop =>
               if cfg.includeProps then
                 (if cfg.recursive then mapCore cfg f v (some (Key.name n, t))
                  else Except.ok (f (Trace.child v (Key.name n) t)))
               else Except.ok v
             | FieldKind.attr =>
               match (if cfg.recursive then
                        mapCore cfg f v (some (Key.name n, t))
                      else Except.ok (f (Trace.child v (Key.name n) t))) with
               | Except.error e => Except.error e
               | Except.ok m => applyValidator cfg.valid d m) with
    | Except.error e => Except.error e
    | Except.ok v2 =>
      match mapFields cfg f t ty rest with
      | Except.error e => Except.error e
      | Except.ok rest2 => Except.ok (EntryList.cons n v2 rest2)
end

/-- map with a plain value-to-value function: the usual entry point when no
trace is requested; f receives each selected value. -/
def map (cfg : MapConfig) (f : Value → Value) (root : Value) :
    Except String Value :=
  mapCore cfg (fun t => f (Trace.value t)) root none

/-- map with trace=True: f receives the Trace wrapping each selected value. -/
def mapTraced (cfg : MapConfig) (f : Trace → Value) (root : Value) :
    Except String Value :=
  mapCore cfg f root none

mutual
/-- Modelled from the spec: foreach follows the identical traversal and
ordering rules as map but discards results and performs no reconstruction;
in this pure embedding it is rendered as the ordered list of Trace nodes on
which f is invoked. -/
def foreachTraces (cfg : MapConfig) (v : Value) (ctx : Option (Key × Trace)) :
    List Trace :=
  if isLeafNode cfg.reg cfg.leafCondition v then [Trace.ofCtx v ctx]
  else
    match v with
    | Value.leaf l => [Trace.ofCtx (Value.leaf l) ctx]
    | Value.list items =>
      foreachList cfg (Trace.ofCtx (Value.list items) ctx) items 0
    | Value.tuple items =>
      foreachList cfg (Trace.ofCtx (Value.tuple items) ctx) items 0
    | Value.objArray items =>
      foreachList cfg (Trace.ofCtx (Value.objArray items) ctx) items 0
    | Value.dict entries =>
      foreachDict cfg (Trace.ofCtx (Value.dict entries) ctx) entries
    | Value.declared tyName fields =>
      match cfg.reg tyName with
      | none => [Trace.ofCtx (Value.declared tyName fields) ctx]
      | some ty =>
        foreachFields cfg (Trace.ofCtx (Value.declared tyName fields) ctx)
          ty fields
/-- Visitation log over ordered children, mirroring mapList. -/
def foreachList (cfg : MapConfig) (t : Trace) :
    ValueList → Nat → List Trace
  | ValueList.nil, _ => []
  | ValueList.cons c rest, i =>
    (if cfg.recursive then foreachTraces cfg c (some (Key.index i, t))
     else [Trace.child c (Key.index i) t]) ++ foreachList cfg t rest (i + 1)
/-- Visitation log over keyed entries, mirroring mapDict. -/
def foreachDict (cfg : MapConfig) (t : Trace) : EntryList → List Trace
  | EntryList.nil => []
  | EntryList.cons n v rest =>
    (if cfg.recursive then foreachTraces cfg v (some (Key.name n, t))
     else [Trace.child v (Key.name n) t]) ++ foreachDict cfg t rest
/-- Visitation log over declared fields, mirroring mapFields: an excluded
property, or a field with no registered declaration, is not visited. -/
def foreachFields (cfg : MapConfig) (t : Trace) (ty : StructType) :
    EntryList → List Trace
  | EntryList.nil => []
  | EntryList.cons n v rest =>
    (match ty.fields.find? (fun d => d.name == n) with
     | none => []
     | some d =>
       match d.kind with
       | FieldKind.prop =>
         if cfg.includeProps then
           (if cfg.recursive then foreachTraces cfg v (some (Key.name n, t))
            else [Trace.child v (Key.name n) t])
         else []
       | FieldKind.attr =>
         (if cfg.recursive then foreachTraces cfg v (some (Key.name n, t))
          else [Trace.child v (Key.name n) t])) ++ foreachFields cfg t ty rest
end

/-- Modelled from the spec: registering one field on a type under
declaration.  A duplicate name within one type raises a configuration error
immediately, before any instance exists. -/
def registerField (ty : StructType) (d : FieldDecl) :
    Except String StructType :=
  if ty.fields.any (fun e => e.name == d.name) then
    Except.error ("ConfigurationError: duplicate field " ++ d.name)
  else Except.ok (StructType.mk ty.name (ty.fields ++ [d]))

/-- Register a list of field declarations one by one onto an accumulator. -/
def declareFieldsGo (acc : StructType) :
    List FieldDecl → Except String StructType
  | [] => Except.ok acc
  | d :: rest =>
    match registerField acc d with
    | Except.error e => Except.error e
    | Except.ok acc2 => declareFieldsGo acc2 rest

/-- Modelled from the spec: declaring a composite type registers its fields
in order at type-declaration time; the declared StructType only exists when
every registration succeeded. -/
def declareType (n : String) (decls : List FieldDecl) :
    Except String StructType :=
  declareFieldsGo (StructType.mk n []) decls

/-- Build the stored fields of a new instance: every declared field, in
declaration order, takes its proposed value from the arguments and passes
through its validator when validation is active. -/
def constructFields (valid : Bool) (args : List (String × Value)) :
    List FieldDecl → Except String EntryList
  | [] => Except.ok EntryList.nil
  | d :: rest =>
    match lookupArg args d.name with
    | none => Except.error ("missing constructor argument " ++ d.name)
    | some v =>
      match applyValidator valid d v with
      | Except.error e => Except.error e
      | Except.ok v2 =>
        match constructFields valid args rest with
        | Except.error e => Except.error e
        | Except.ok rest2 => Except.ok (EntryList.cons d.name v2 rest2)

/-- Modelled from the spec: constructing a declared composite instance;
validators gate admission when validation is enabled and are bypassed
unconditionally when disabled. -/
def construct (valid : Bool) (ty : StructType) (args : List (String × Value)) :
    Except String Value :=
  match constructFields valid args ty.fields with
  | Except.error e => Except.error e
  | Except.ok fs => Except.ok (Value.declared ty.name fs)

/-- Replace the updated fields of an instance: a field named in the updates
takes the new value through its validator when validation is active, every
other field is carried over unchanged. -/
def copyFields (valid : Bool) (ty : StructType)
    (updates : List (String × Value)) : EntryList → Except String EntryList
  | EntryList.nil => Except.ok EntryList.nil
  | EntryList.cons n old rest =>
    match (match lookupArg updates n with
           | none => Except.ok old
           | some w =>
             match ty.fields.find? (fun d => d.name == n) with
             | none => Except.error ("LookupError: no declared field " ++ n)
             | some d => applyValidator valid d w) with
    | Except.error e => Except.error e
    | Except.ok v =>
      match copyFields valid ty updates rest with
      | Except.error e => Except.error e
      | Except.ok rest2 => Except.ok (EntryList.cons n v rest2)

/-- Modelled from the spec: copied_with produces a new instance of the same
declared type with the named fields replaced (validators re-run on changed
fields only, when enabled) and all other fields carried over unchanged.
Unknown field names are rejected with a lookup error; any single rejection
fails the whole call with no partial result. -/
def copied_with (reg : Registry) (valid : Bool) (inst : Value)
    (updates : List (String × Value)) : Except String Value :=
  match inst with
  | Value.declared tyName fields =>
    match reg tyName with
    | none => Except.error ("copy_with: unregistered type " ++ tyName)
    | some ty =>
      if updates.all (fun u => ty.fields.any (fun d => d.name == u.1)) then
        match copyFields valid ty updates fields with
        | Except.error e => Except.error e
        | Except.ok fs => Except.ok (Value.declared tyName fs)
      else Except.error ("LookupError: unknown field name in copy_with")
  | _ => Except.error ("copy_with requires a declared struct instance")

/-- Modelled from the spec: the single-level reading of map with
recursive=False — f is applied exactly once per direct child of the root,
each child passed whole as a single unit.  Ordered children carry index keys
counting from 0. -/
def applyToChildren (f : Trace → Value) (t : Trace) :
    ValueList → Nat → ValueList
  | ValueList.nil, _ => ValueList.nil
  | ValueList.cons c rest, i =>
    ValueList.cons (f (Trace.child c (Key.index i) t))
      (applyToChildren f t rest (i + 1))

/-- Modelled from the spec: the single-level reading over keyed entries — f
applied once per entry, each entry value passed whole. -/
def applyToEntries (f : Trace → Value) (t : Trace) : EntryList → EntryList
  | EntryList.nil => EntryList.nil
  | EntryList.cons n v rest =>
    EntryList.cons n (f (Trace.child v (Key.name n) t))
      (applyToEntries f t rest)

/-- Modelled from the spec: the single-level reading over declared fields —
f applied once per selected field, properties carried over untouched unless
included, undeclared field names carried over untouched. -/
def applyToFields (f : Trace → Value) (t : Trace) (ty : StructType)
    (ip : Bool) : EntryList → EntryList
  | EntryList.nil => EntryList.nil
  | EntryList.cons n v rest =>
    EntryList.cons n
      (match ty.fields.find? (fun d => d.name == n) with
       | none => v
       | some d =>
         match d.kind with
         | FieldKind.prop =>
           if ip then f (Trace.child v (Key.name n) t) else v
         | FieldKind.attr => f (Trace.child v (Key.name n) t))
      (applyToFields f t ty ip rest)

/-- Modelled from the spec: the expected overall result of
map(f, root, recursive=False) on a composite root — f once per direct child,
results reassembled into the root's top-level shape. -/
def mapNonRecSpec (reg : Registry) (f : Trace → Value) (ip : Bool)
    (v : Value) : Value :=
  match v with
  | Value.leaf l => Value.leaf l
  | Value.list items =>
    Value.list (applyToChildren f (Trace.root (Value.list items)) items 0)
  | Value.tuple items =>
    Value.tuple (applyToChildren f (Trace.root (Value.tuple items)) items 0)
  | Value.objArray items =>
    Value.objArray
      (applyToChildren f (Trace.root (Value.objArray items)) items 0)
  | Value.dict entries =>
    Value.dict (applyToEntries f (Trace.root (Value.dict entries)) entries)
  | Value.declared tyName fields =>
    match reg tyName with
    | none => Value.declared tyName fields
    | some ty =>
      Value.declared tyName
        (applyToFields f (Trace.root (Value.declared tyName fields)) ty ip
          fields)

/-- Modelled from the spec (amended single-level reading over declared
fields): f applied once per selected field, and each attribute's result
additionally passed through its validator when validation is active — a
rejection failing the whole rebuild; properties and undeclared field names
are carried over untouched unless included. -/
def applyToFieldsNR (valid : Bool) (f : Trace → Value) (t : Trace)
    (ty : StructType) (ip : Bool) : EntryList → Except String EntryList
  | EntryList.nil => Except.ok EntryList.nil
  | EntryList.cons n v rest =>
    match (match ty.fields.find? (fun d => d.name == n) with
           | none => Except.ok v
           | some d =>
             match d.kind with
             | FieldKind.prop =>
               if ip then Except.ok (f (Trace.child v (Key.name n) t))
               else Except.ok v
             | FieldKind.attr =>
               applyValidator valid d (f (Trace.child v (Key.name n) t))) with
    | Except.error e => Except.error e
    | Except.ok v2 =>
      match applyToFieldsNR valid f t ty ip rest with
      | Except.error e => Except.error e
      | Except.ok rest2 => Except.ok (EntryList.cons n v2 rest2)

/-- Modelled from the spec (amended single-level reading of
map(f, root, recursive=False), total over every root): f once per direct
selected child, results reassembled into the root's top-level shape; on a
declared root each attribute's result additionally passes through its
validator when validation is active, a rejection failing the whole call
with no structure produced. -/
def mapNonRecSpecV (reg : Registry) (valid : Bool) (f : Trace → Value)
    (ip : Bool) (v : Value) : Except String Value :=
  match v with
  | Value.leaf l => Except.ok (Value.leaf l)
  | Value.list items =>
    Except.ok
      (Value.list (applyToChildren f (Trace.root (Value.list items)) items 0))
  | Value.tuple items =>
    Except.ok
      (Value.tuple (applyToChildren f (Trace.root (Value.tuple items)) items 0))
  | Value.objArray items =>
    Except.ok (Value.objArray
      (applyToChildren f (Trace.root (Value.objArray items)) items 0))
  | Value.dict entries =>
    Except.ok
      (Value.dict (applyToEntries f (Trace.root (Value.dict entries)) entries))
  | Value.declared tyName fields =>
    match reg tyName with
    | none => Except.ok (Value.declared tyName fields)
    | some ty =>
      match applyToFieldsNR valid f (Trace.root (Value.declared tyName fields))
          ty ip fields with
      | Except.error e => Except.error e
      | Except.ok fs => Except.ok (Value.declared tyName fs)

/-- Shorthand for an integer leaf. -/
def intV (n : Int) : Value := Value.leaf (Leaf.int n)

/-- Shorthand for a string leaf. -/
def strV (s : String) : Value := Value.leaf (Leaf.str s)

/-- Render a leaf the way Python str() renders the recorded examples. -/
def valueToString : Value → String
  | Value.leaf (Leaf.int n) => toString n
  | Value.leaf (Leaf.str s) => s
  | _ => "composite"

/-- A validator that accepts every value unchanged. -/
def idValidator : Validator := fun v => some v

/-- A validator that transforms its input into its string rendering, like
the str conversion in the notebook's MyStruct property p. -/
def strValidator : Validator := fun v => some (strV (valueToString v))

/-- A validator that accepts only non-negative integer leaves and rejects
everything else. -/
def posValidator : Validator := fun v =>
  match v with
  | Value.leaf (Leaf.int n) => if 0 ≤ n then some (Value.leaf (Leaf.int n)) else none
  | _ => none

/-- The notebook's MyStruct: attribute a validated by the identity, property
p validated by the string conversion. -/
def myStructTy : StructType :=
  StructType.mk ("MyStruct")
    [FieldDecl.mk ("a") FieldKind.attr idValidator,
     FieldDecl.mk ("p") FieldKind.prop strValidator]

/-- Registry holding exactly MyStruct. -/
def myReg : Registry :=
  fun n => if n == "MyStruct" then some myStructTy else none

/-- The validly constructed MyStruct(a=0, p=0): p was transformed to the
string rendering by its validator. -/
def myInst0 : Value :=
  Value.declared ("MyStruct")
    (EntryList.ofList [("a", intV 0), ("p", strV ("0"))])

/-- A declared type with a single attribute whose validator transforms the
value into its string rendering; used to observe whether map reconstruction
runs validators. -/
def numTy : StructType :=
  StructType.mk ("Num") [FieldDecl.mk ("d") FieldKind.attr strValidator]

/-- Registry holding exactly Num. -/
def numReg : Registry := fun n => if n == "Num" then some numTy else none

/-- A Num instance holding a raw integer, which the attribute validator
would transform into a string. -/
def numInst : Value :=
  Value.declared ("Num") (EntryList.ofList [("d", intV 3)])

/-- A declared type with two attributes: a accepts anything, q accepts only
non-negative integers; used to observe rejection during copy-with. -/
def checkTy : StructType :=
  StructType.mk ("Checked")
    [FieldDecl.mk ("a") FieldKind.attr idValidator,
     FieldDecl.mk ("q") FieldKind.attr posValidator]

/-- Registry holding exactly Checked. -/
def checkReg : Registry :=
  fun n => if n == "Checked" then some checkTy else none

/-- The stored fields of a valid Checked instance. -/
def checkFields : EntryList := EntryList.ofList [("a", intV 1), ("q", intV 2)]

/-- A valid Checked instance. -/
def checkInst : Value := Value.declared ("Checked") checkFields

/-- A grid-like declared type in notebook declaration order: the attribute
data is declared between properties box and name, so a declaration-order
traversal interleaves kinds. -/
def gridTy : StructType :=
  StructType.mk ("Grid")
    [FieldDecl.mk ("box") FieldKind.prop idValidator,
     FieldDecl.mk ("data") FieldKind.attr idValidator,
     FieldDecl.mk ("name") FieldKind.prop idValidator,
     FieldDecl.mk ("bounds") FieldKind.prop idValidator,
     FieldDecl.mk ("tags") FieldKind.prop idValidator,
     FieldDecl.mk ("age") FieldKind.prop idValidator]

/-- Registry holding exactly Grid. -/
def gridReg : Registry := fun n => if n == "Grid" then some gridTy else none

/-- The stored fields of a concrete grid instance, leaf-valued. -/
def gridFields : EntryList :=
  EntryList.ofList
    [("box", strV ("box0")), ("data", intV 7), ("name", strV ("density")),
     ("bounds", strV ("b0")), ("tags", strV ("t0")), ("age", intV 0)]

/-- The map options used by the plain notebook calls: no declared types, the
default validity state, full recursion, no leaf condition, no properties. -/
def cfgDefault : MapConfig :=
  MapConfig.mk emptyReg (validationEnabled []) true (fun _ => false) false

/-- The spec's end-to-end example input ([1, 2], dict of x0 0, x1 1, x2 2). -/
def cEx : Value :=
  Value.tuple (ValueList.ofList
    [Value.list (ValueList.ofList [intV 1, intV 2]),
     Value.dict (EntryList.ofList
       [("x0", intV 0), ("x1", intV 1), ("x2", intV 2)])])

/-- The spec's expected end-to-end output ([2, 4], dict of 0, 2, 4). -/
def cExpected : Value :=
  Value.tuple (ValueList.ofList
    [Value.list (ValueList.ofList [intV 2, intV 4]),
     Value.dict (EntryList.ofList
       [("x0", intV 0), ("x1", intV 2), ("x2", intV 4)])])

/-- Double integer leaves, leave any other leaf unchanged. -/
def dblF : Value → Value
  | Value.leaf (Leaf.int n) => Value.leaf (Leaf.int (n * 2))
  | v => v

/-- The path-correctness root of the spec: a dict holding x -> [10, 20]. -/
def pathRoot : Value :=
  Value.dict (EntryList.ofList
    [("x", Value.list (ValueList.ofList [intV 10, intV 20]))])

/-- A mapping function that records each visited leaf's key. -/
def keyProbe : Trace → Value
  | t =>
    match t.key with
    | some (Key.index i) => intV (Int.ofNat i)
    | some (Key.name s) => strV s
    | none => strV ("root")

/-- A mapping function that records each visited leaf's parent path. -/
def parentProbe : Trace → Value
  | t =>
    match t.parent with
    | some p => strV (p.path)
    | none => strV ("no-parent")

/-- The identity mapping function on traces: returns the traced value. -/
def idMapF : Trace → Value := fun t => t.value

/-- Single-level options on the Num registry under the default enabled
validation. -/
def cfgNumStrictNR : MapConfig :=
  MapConfig.mk numReg (validationEnabled []) false (fun _ => false) false

/-- Single-level options on the Checked registry under the default enabled
validation. -/
def cfgCheckStrictNR : MapConfig :=
  MapConfig.mk checkReg (validationEnabled []) false (fun _ => false) false

/-- A mapping function returning -1 for every child, a value the Checked
field q's validator rejects. -/
def negOneF : Trace → Value := fun _ => intV (-1)

/-- Options for claim C3's witness: dicts are forced to be leaves. -/
def cfgDictLeaf : MapConfig :=
  MapConfig.mk emptyReg true true
    (fun v => match v with | Value.dict _ => true | _ => false) false

/-- Options treating Num instances under active validation. -/
def cfgNumStrict : MapConfig :=
  MapConfig.mk numReg true true (fun _ => false) false

/-- Options treating Num instances inside a permissive scope. -/
def cfgNumPerm : MapConfig :=
  MapConfig.mk numReg (validationEnabled (anytype [])) true
    (fun _ => false) false

/-- Options for traversing MyStruct instances with default settings. -/
def cfgMyDefault : MapConfig :=
  MapConfig.mk myReg true true (fun _ => false) false

/-- Options for claim C10: grid registry, full recursion, properties
included. -/
def cfgGridProps : MapConfig :=
  MapConfig.mk gridReg true true (fun _ => false) true

/-- Constructor arguments a=0, p=0 for MyStruct. -/
def mixedArgs : List (String × Value) := [("a", intV 0), ("p", intV 0)]

/-- Two field declarations sharing the name x, for the duplicate-declaration
claim. -/
def dupDecls : List FieldDecl :=
  [FieldDecl.mk ("x") FieldKind.attr idValidator,
   FieldDecl.mk ("x") FieldKind.prop idValidator]

/-- When the leaf condition holds on a node, map applies f to the node
itself, wrapped in its trace, and returns directly. -/
theorem mapCore_leafcond (cfg : MapConfig) (f : Trace → Value) (v : Value)
    (ctx : Option (Key × Trace)) (hlc : cfg.leafCondition v = true) :
    mapCore cfg f v ctx = Except.ok (f (Trace.ofCtx v ctx)) := by
  rw [mapCore.eq_def]
  simp [isLeafNode, hlc]

/-- When the leaf condition holds on a node, the visitation log holds exactly
that node. -/
theorem foreachTraces_leafcond (cfg : MapConfig) (v : Value)
    (ctx : Option (Key × Trace)) (hlc : cfg.leafCondition v = true) :
    foreachTraces cfg v ctx = [Trace.ofCtx v ctx] := by
  rw [foreachTraces.eq_def]
  simp [isLeafNode, hlc]

/-- A leaf value is always visited as itself. -/
theorem foreachTraces_leaf (cfg : MapConfig) (l : Leaf)
    (ctx : Option (Key × Trace)) :
    foreachTraces cfg (Value.leaf l) ctx = [Trace.ofCtx (Value.leaf l) ctx] := by
  rw [foreachTraces.eq_def]
  simp [isLeafNode, isLeafKind, classify]

/-- With recursion off, visiting ordered children applies f once per child. -/
theorem mapList_nonrec (cfg : MapConfig) (f : Trace → Value) (t : Trace)
    (hrec : cfg.recursive = false) :
    ∀ (items : ValueList) (i : Nat),
      mapList cfg f t items i = Except.ok (applyToChildren f t items i)
  | ValueList.nil, i => by simp [mapList, applyToChildren]
  | ValueList.cons c rest, i => by
    simp [mapList, applyToChildren, hrec,
      mapList_nonrec cfg f t hrec rest (i + 1)]

/-- With recursion off, visiting keyed entries applies f once per entry. -/
theorem mapDict_nonrec (cfg : MapConfig) (f : Trace → Value) (t : Trace)
    (hrec : cfg.recursive = false) :
    ∀ (entries : EntryList),
      mapDict cfg f t entries = Except.ok (applyToEntries f t entries)
  | EntryList.nil => by simp [mapDict, applyToEntries]
  | EntryList.cons n v rest => by
    simp [mapDict, applyToEntries, hrec, mapDict_nonrec cfg f t hrec rest]

/-- With recursion off and validation disabled, visiting declared fields
applies f once per selected field. -/
theorem mapFields_nonrec (cfg : MapConfig) (f : Trace → Value) (t : Trace)
    (ty : StructType) (hrec : cfg.recursive = false)
    (hval : cfg.valid = false) :
    ∀ (fields : EntryList),
      mapFields cfg f t ty fields =
        Except.ok (applyToFields f t ty cfg.includeProps fields)
  | EntryList.nil => by simp [mapFields, applyToFields]
  | EntryList.cons n v rest => by
    have ih := mapFields_nonrec cfg f t ty hrec hval rest
    simp only [mapFields, applyToFields, hrec, hval, ih]
    cases hf : ty.fields.find? (fun d => d.name == n) with
    | none => simp
    | some d =>
      cases hk : d.kind with
      | prop => cases hip : cfg.includeProps <;> simp [hk, hip, applyValidator]
      | attr => simp [hk, applyValidator]

/-- C1: on the input c = ([1, 2], dict x0 0, x1 1, x2 2), recursive map with
the doubling function returns ([2, 4], dict x0 0, x1 2, x2 4): every leaf is
doubled and the tuple/list/dict shape, keys, nesting and ordering are
preserved exactly. -/
theorem map_doubles_end_to_end :
    map cfgDefault dblF cEx = Except.ok cExpected := rfl

/-- C3: whenever the leaf condition holds on a node that would otherwise
classify as composite, f is invoked on that node itself (wrapped in its
trace) and the call returns directly, so none of the node's descendants is
ever visited: the visitation log holds exactly that node. -/
theorem leaf_condition_shortcircuits (cfg : MapConfig) (f : Trace → Value)
    (v : Value) (ctx : Option (Key × Trace))
    (_hcomp : classify cfg.reg v ≠ CompositeKind.Leaf)
    (hlc : cfg.leafCondition v = true) :
    mapCore cfg f v ctx = Except.ok (f (Trace.ofCtx v ctx)) ∧
      foreachTraces cfg v ctx = [Trace.ofCtx v ctx] :=
  ⟨mapCore_leafcond cfg f v ctx hlc, foreachTraces_leafcond cfg v ctx hlc⟩

/-- Witness for C3: with dicts forced to be leaves, the dict child of the
spec example is passed whole to f and its entries are never visited. -/
theorem leaf_condition_shortcircuits_witness :
    mapCore cfgDictLeaf idMapF pathRoot none =
        Except.ok (idMapF (Trace.ofCtx pathRoot none)) ∧
      foreachTraces cfgDictLeaf pathRoot none =
        [Trace.ofCtx pathRoot none] :=
  leaf_condition_shortcircuits cfgDictLeaf idMapF pathRoot none
    (by decide) rfl

/-- C4: with trace=True, f receives for each visited leaf a Trace exposing
the value, the key (integer index under the ordered composite, string under
the keyed composite) and the parent; path() renders the key chain from root
dot-separated with numeric keys as numerals, so the two leaves of
x -> [10, 20] yield paths x.0 and x.1, keys 0 and 1 under x, parent path x,
and the traced values reassemble the input. -/
theorem trace_paths_example :
    mapTraced cfgDefault (fun t => strV (Trace.path t)) pathRoot =
        Except.ok (Value.dict (EntryList.ofList
          [("x", Value.list (ValueList.ofList
            [strV ("x.0"), strV ("x.1")]))])) ∧
      mapTraced cfgDefault keyProbe pathRoot =
        Except.ok (Value.dict (EntryList.ofList
          [("x", Value.list (ValueList.ofList [intV 0, intV 1]))])) ∧
      mapTraced cfgDefault parentProbe pathRoot =
        Except.ok (Value.dict (EntryList.ofList
          [("x", Value.list (ValueList.ofList
            [strV ("x"), strV ("x")]))])) ∧
      mapTraced cfgDefault idMapF pathRoot = Except.ok pathRoot :=
  ⟨rfl, rfl, rfl, rfl⟩

/-- C9: property validators execute and their result is what gets stored,
at construction and at copied_with alike: constructing MyStruct with p=0
stores the string 0 (while a is kept by its identity validator), and
copied_with p=1 stores the string 1; yet the property p is excluded from
default data traversal, which visits only the attribute a. -/
theorem property_validators_run :
    construct true myStructTy mixedArgs = Except.ok myInst0 ∧
      myInst0 = Value.declared ("MyStruct")
        (EntryList.ofList [("a", intV 0), ("p", strV ("0"))]) ∧
      copied_with myReg true myInst0 [("p", intV 1)] =
        Except.ok (Value.declared ("MyStruct")
          (EntryList.ofList [("a", intV 0), ("p", strV ("1"))])) ∧
      (foreachTraces cfgMyDefault myInst0 none).map Trace.key =
        [some (Key.name ("a"))] :=
  ⟨rfl, rfl, rfl, rfl⟩

/-- With recursion off, visiting declared fields under any validation state
applies f once per selected field and threads each attribute result through
its validator. -/
theorem mapFields_nonrec_validated (cfg : MapConfig) (f : Trace → Value)
    (t : Trace) (ty : StructType) (hrec : cfg.recursive = false) :
    ∀ fields : EntryList,
      mapFields cfg f t ty fields =
        applyToFieldsNR cfg.valid f t ty cfg.includeProps fields
  | EntryList.nil => by simp [mapFields, applyToFieldsNR]
  | EntryList.cons n v rest => by
    have ih := mapFields_nonrec_validated cfg f t ty hrec rest
    simp only [mapFields, applyToFieldsNR, hrec, ih]
    cases hf : ty.fields.find? (fun d => d.name == n) with
    | none => simp
    | some d =>
      cases hk : d.kind with
      | prop => cases hip : cfg.includeProps <;> simp [hk, hip]
      | attr => simp [hk]

/-- With validation disabled, the validated single-level field rebuild never
fails and coincides with the plain one. -/
theorem applyToFieldsNR_permissive (f : Trace → Value) (t : Trace)
    (ty : StructType) (ip : Bool) :
    ∀ fields : EntryList,
      applyToFieldsNR false f t ty ip fields =
        Except.ok (applyToFields f t ty ip fields)
  | EntryList.nil => by simp [applyToFieldsNR, applyToFields]
  | EntryList.cons n v rest => by
    have ih := applyToFieldsNR_permissive f t ty ip rest
    simp only [applyToFieldsNR, applyToFields, ih]
    cases hf : ty.fields.find? (fun d => d.name == n) with
    | none => simp
    | some d =>
      cases hk : d.kind with
      | prop => cases hip : ip <;> simp [hk, hip, applyValidator]
      | attr => simp [hk, applyValidator]

/-- Counterexample to C2 as stated: on the declared composite root
Num(d=3) under the default enabled validation, map with recursive=False
does not return the reassembly of f's results into the root's top-level
shape: with the identity mapping function, f's result for the only child is
the raw integer 3, yet the call stores the validated string 3; and on
Checked(a=1, q=2) a mapping function whose result q's validator rejects
fails the whole call, producing no structure at all. -/
theorem map_nonrecursive_counterexample :
    mapCore cfgNumStrictNR idMapF numInst none =
        Except.ok (Value.declared ("Num")
          (EntryList.ofList [("d", strV ("3"))])) ∧
      mapNonRecSpec numReg idMapF false numInst =
        Value.declared ("Num") (EntryList.ofList [("d", intV 3)]) ∧
      mapCore cfgNumStrictNR idMapF numInst none ≠
        Except.ok (mapNonRecSpec numReg idMapF false numInst) ∧
      mapCore cfgCheckStrictNR negOneF checkInst none =
        Except.error ("ValidationError: field q") := by
  refine ⟨rfl, rfl, ?_, rfl⟩
  intro h
  rw [show mapCore cfgNumStrictNR idMapF numInst none =
    Except.ok (Value.declared ("Num")
      (EntryList.ofList [("d", strV ("3"))])) from rfl] at h
  rw [show mapNonRecSpec numReg idMapF false numInst =
    Value.declared ("Num") (EntryList.ofList [("d", intV 3)]) from rfl] at h
  simp [EntryList.ofList, intV, strV] at h

/-- C2 (amended): for every composite root, map with recursive=False
invokes f exactly once per direct selected child, passing each child whole
without inspecting whether it is itself composite, and reassembles the
results into a structure with the root's top-level shape, except that on a
declared root under enabled validation each attribute's result additionally
passes through its validator, a rejection failing the whole call with no
structure produced; whenever validation is disabled or the root is not a
declared composite, the outcome is exactly the plain reassembly of f's
results. -/
theorem map_nonrecursive_amended (cfg : MapConfig) (f : Trace → Value)
    (v : Value) (hrec : cfg.recursive = false)
    (hcomp : classify cfg.reg v ≠ CompositeKind.Leaf)
    (hlc : cfg.leafCondition v = false) :
    mapCore cfg f v none =
        mapNonRecSpecV cfg.reg cfg.valid f cfg.includeProps v ∧
      (cfg.valid = false ∨
          (∀ tyName fields, v ≠ Value.declared tyName fields) →
        mapNonRecSpecV cfg.reg cfg.valid f cfg.includeProps v =
          Except.ok (mapNonRecSpec cfg.reg f cfg.includeProps v)) := by
  have hk : isLeafKind (classify cfg.reg v) = false := by
    cases h : classify cfg.reg v <;> simp [isLeafKind]
    exact hcomp h
  constructor
  · rw [mapCore.eq_def]
    simp only [isLeafNode, hk, hlc, Bool.or_false, Bool.false_or]
    cases v with
    | leaf l => simp [classify] at hcomp
    | list items =>
      simp [mapNonRecSpecV, mapList_nonrec cfg f _ hrec items 0, Trace.ofCtx]
    | tuple items =>
      simp [mapNonRecSpecV, mapList_nonrec cfg f _ hrec items 0, Trace.ofCtx]
    | objArray items =>
      simp [mapNonRecSpecV, mapList_nonrec cfg f _ hrec items 0, Trace.ofCtx]
    | dict entries =>
      simp [mapNonRecSpecV, mapDict_nonrec cfg f _ hrec entries, Trace.ofCtx]
    | declared tyName fields =>
      cases hr : cfg.reg tyName with
      | none => simp [classify, hr] at hcomp
      | some ty =>
        simp only [mapNonRecSpecV, hr, Trace.ofCtx]
        rw [mapFields_nonrec_validated cfg f
          (Trace.root (Value.declared tyName fields)) ty hrec fields]
        simp
  · intro hdisj
    cases v with
    | leaf l => simp [classify] at hcomp
    | list items => simp [mapNonRecSpecV, mapNonRecSpec]
    | tuple items => simp [mapNonRecSpecV, mapNonRecSpec]
    | objArray items => simp [mapNonRecSpecV, mapNonRecSpec]
    | dict entries => simp [mapNonRecSpecV, mapNonRecSpec]
    | declared tyName fields =>
      rcases hdisj with hv | hne
      · cases hr : cfg.reg tyName with
        | none => simp [mapNonRecSpecV, mapNonRecSpec, hr]
        | some ty =>
          rw [hv]
          simp [mapNonRecSpecV, mapNonRecSpec, hr,
            applyToFieldsNR_permissive f
              (Trace.root (Value.declared tyName fields)) ty
              cfg.includeProps fields]
      · exact absurd rfl (hne tyName fields)

/-- Witness for C2 (amended): on the declared root Num(d=3) under enabled
validation, single-level map with the identity mapping function follows the
amended description, which evaluates to Num holding the validated string
3. -/
theorem map_nonrecursive_amended_witness :
    (mapCore cfgNumStrictNR idMapF numInst none =
        mapNonRecSpecV numReg true idMapF false numInst ∧
      (true = false ∨
          (∀ tyName fields, numInst ≠ Value.declared tyName fields) →
        mapNonRecSpecV numReg true idMapF false numInst =
          Except.ok (mapNonRecSpec numReg idMapF false numInst))) ∧
      mapNonRecSpecV numReg true idMapF false numInst =
        Except.ok (Value.declared ("Num")
          (EntryList.ofList [("d", strV ("3"))])) :=
  ⟨map_nonrecursive_amended cfgNumStrictNR idMapF numInst rfl (by decide)
    rfl, rfl⟩

/-- With validation disabled, construction succeeds whenever every declared
field has a proposed value, and each proposed value is stored unmodified. -/
theorem constructFields_permissive (args : List (String × Value)) :
    ∀ decls : List FieldDecl,
      decls.all (fun d => (lookupArg args d.name).isSome) = true →
      ∃ fs, constructFields false args decls = Except.ok fs ∧
        ∀ d ∈ decls, ∀ v, lookupArg args d.name = some v →
          (d.name, v) ∈ fs.toList
  | [] => fun _ => ⟨EntryList.nil, rfl, by simp⟩
  | d :: rest => fun h => by
    simp only [List.all_cons, Bool.and_eq_true] at h
    obtain ⟨hd, hrest⟩ := h
    obtain ⟨w, hw⟩ := Option.isSome_iff_exists.mp hd
    obtain ⟨fs, hfs, hmem⟩ := constructFields_permissive args rest hrest
    refine ⟨EntryList.cons d.name w fs, ?_, ?_⟩
    · simp [constructFields, hw, applyValidator, hfs]
    · intro d0 hd0 v hv
      simp only [EntryList.toList]
      rcases List.mem_cons.mp hd0 with h0 | h0
      · subst h0
        rw [hw] at hv
        injection hv with hv
        subst hv
        exact List.Mem.head _
      · exact List.Mem.tail _ (hmem d0 h0 v hv)

/-- C5: inside a permissive (anytype) scope every field validator is
skipped: the default process state is validation enabled, entering the scope
disables it and leaving restores the prior stack; the single validation gate
accepts everything unchanged when disabled; permissive construction succeeds
with every proposed value stored unmodified (in particular MyStruct p=0
keeps the raw integer its validator would otherwise stringify); permissive
copy-with stores the update unmodified; and permissive map reconstruction
returns the instance untouched where enabled validation would transform it. -/
theorem anytype_bypasses_validators :
    validationEnabled [] = true ∧
      (∀ ctx, validationEnabled (anytype ctx) = false) ∧
      (∀ ctx, exitScope (anytype ctx) = ctx) ∧
      (∀ d v, applyValidator false d v = Except.ok v) ∧
      (∀ (ty : StructType) (args : List (String × Value)),
        ty.fields.all (fun d => (lookupArg args d.name).isSome) = true →
        ∃ fs, construct false ty args =
            Except.ok (Value.declared ty.name fs) ∧
          ∀ d ∈ ty.fields, ∀ v, lookupArg args d.name = some v →
            (d.name, v) ∈ fs.toList) ∧
      construct false myStructTy mixedArgs =
        Except.ok (Value.declared ("MyStruct")
          (EntryList.ofList [("a", intV 0), ("p", intV 0)])) ∧
      copied_with myReg false myInst0 [("p", intV 5)] =
        Except.ok (Value.declared ("MyStruct")
          (EntryList.ofList [("a", intV 0), ("p", intV 5)])) ∧
      mapCore cfgNumPerm idMapF numInst none = Except.ok numInst ∧
      mapCore cfgNumStrict idMapF numInst none =
        Except.ok (Value.declared ("Num")
          (EntryList.ofList [("d", strV ("3"))])) := by
  refine ⟨rfl, fun _ => rfl, fun _ => rfl, fun d v => rfl, ?_,
    rfl, rfl, rfl, rfl⟩
  intro ty args h
  obtain ⟨fs, hfs, hmem⟩ := constructFields_permissive args ty.fields h
  exact ⟨fs, by simp [construct, hfs], hmem⟩

/-- Witness for C5: permissive construction of MyStruct(a=0, p=0) succeeds
and stores both raw integers unmodified. -/
theorem anytype_bypasses_validators_witness :
    ∃ fs, construct false myStructTy mixedArgs =
        Except.ok (Value.declared (myStructTy.name) fs) ∧
      ∀ d ∈ myStructTy.fields, ∀ v, lookupArg mixedArgs d.name = some v →
        (d.name, v) ∈ fs.toList :=
  anytype_bypasses_validators.2.2.2.2.1 myStructTy mixedArgs rfl

/-- If some instance field is named in the updates and its declared
validator rejects the proposed value, rebuilding the field list under active
validation fails. -/
theorem copyFields_rejects (ty : StructType) (updates : List (String × Value))
    (n : String) (old w : Value) (d : FieldDecl)
    (hupd : lookupArg updates n = some w)
    (hdecl : ty.fields.find? (fun fd => fd.name == n) = some d)
    (hrej : d.validator w = none) :
    ∀ fields : EntryList, (n, old) ∈ fields.toList →
      ∃ e, copyFields true ty updates fields = Except.error e
  | EntryList.nil => fun h => absurd h (by simp [EntryList.toList])
  | EntryList.cons m o rest => fun h => by
    simp only [EntryList.toList, List.mem_cons] at h
    rcases h with h | h
    · rw [Prod.mk.injEq] at h
      obtain ⟨h1, h2⟩ := h
      subst h1
      exact ⟨"ValidationError: field " ++ d.name,
        by simp [copyFields, hupd, hdecl, applyValidator, hrej]⟩
    · obtain ⟨e, he⟩ :=
        copyFields_rejects ty updates n old w d hupd hdecl hrej rest h
      cases hlu : lookupArg updates m with
      | none => exact ⟨e, by simp [copyFields, hlu, he]⟩
      | some w2 =>
        cases hfd : ty.fields.find? (fun fd => fd.name == m) with
        | none =>
          exact ⟨"LookupError: no declared field " ++ m,
            by simp [copyFields, hlu, hfd]⟩
        | some d2 =>
          cases hav : applyValidator true d2 w2 with
          | error e2 => exact ⟨e2, by simp [copyFields, hlu, hfd, hav]⟩
          | ok v2 => exact ⟨e, by simp [copyFields, hlu, hfd, hav, he]⟩

/-- C6: copy_with is atomic under validation failure: if any one requested
field update is rejected by its declared validator, the whole call returns
an error, so no updated instance — partial or otherwise — is ever produced;
the source instance, being a pure value, is untouched. -/
theorem copy_with_atomic_on_rejection (reg : Registry) (tyName : String)
    (ty : StructType) (fields : EntryList) (updates : List (String × Value))
    (n : String) (old w : Value) (d : FieldDecl)
    (hreg : reg tyName = some ty)
    (hmem : (n, old) ∈ fields.toList)
    (hupd : lookupArg updates n = some w)
    (hdecl : ty.fields.find? (fun fd => fd.name == n) = some d)
    (hrej : d.validator w = none) :
    ∃ e, copied_with reg true (Value.declared tyName fields) updates =
      Except.error e := by
  simp only [copied_with, hreg]
  cases hall : updates.all (fun u => ty.fields.any (fun fd => fd.name == u.1)) with
  | false =>
    exact ⟨"LookupError: unknown field name in copy_with", by simp [hall]⟩
  | true =>
    obtain ⟨e, he⟩ :=
      copyFields_rejects ty updates n old w d hupd hdecl hrej fields hmem
    exact ⟨e, by simp [hall, he]⟩

/-- Witness for C6: updating Checked(a=1, q=2) with a=5 and q=-1 fails as a
whole because q's validator rejects -1. -/
theorem copy_with_atomic_on_rejection_witness :
    ∃ e, copied_with checkReg true checkInst
        [("a", intV 5), ("q", intV (-1))] = Except.error e :=
  copy_with_atomic_on_rejection checkReg ("Checked") checkTy checkFields
    [("a", intV 5), ("q", intV (-1))] ("q") (intV 2) (intV (-1))
    (FieldDecl.mk ("q") FieldKind.attr posValidator) rfl
    (List.Mem.tail _ (List.Mem.head _)) rfl rfl rfl

/-- If successive registration of a declaration list succeeds, the
accumulated names together with the declared names are duplicate-free. -/
theorem declareFieldsGo_ok_nodup :
    ∀ (decls : List FieldDecl) (acc ty : StructType),
      declareFieldsGo acc decls = Except.ok ty →
      (acc.fields.map FieldDecl.name).Nodup →
      ((acc.fields.map FieldDecl.name) ++ decls.map FieldDecl.name).Nodup
  | [], acc, ty => fun _ hnd => by simpa using hnd
  | d :: rest, acc, ty => fun h hnd => by
    rw [declareFieldsGo, registerField] at h
    cases hdup : acc.fields.any (fun e => e.name == d.name) with
    | true => rw [hdup] at h; simp at h
    | false =>
      rw [hdup] at h
      simp only [Bool.false_eq_true, if_false] at h
      have hnotin : d.name ∉ acc.fields.map FieldDecl.name := by
        intro hin
        obtain ⟨e0, he0, hname⟩ := List.mem_map.mp hin
        have hany : acc.fields.any (fun e => e.name == d.name) = true :=
          List.any_eq_true.mpr ⟨e0, he0, by simp [hname]⟩
        rw [hdup] at hany
        exact Bool.false_ne_true hany
      have hnd2 :
          ((StructType.mk acc.name (acc.fields ++ [d])).fields.map
            FieldDecl.name).Nodup := by
        simp only [List.map_append, List.map_cons, List.map_nil]
        rw [List.nodup_append]
        refine ⟨hnd, List.nodup_singleton _, ?_⟩
        intro a ha hb
        simp only [List.mem_singleton] at hb
        subst hb
        exact hnotin ha
      have hrec := declareFieldsGo_ok_nodup rest
        (StructType.mk acc.name (acc.fields ++ [d])) ty h hnd2
      simp only [List.map_append, List.map_cons, List.map_nil] at hrec
      rw [List.append_assoc, List.singleton_append] at hrec
      simpa using hrec

/-- C7: declaring two fields with the same name on one composite type fails
with a configuration error at declaration time: the declared type value —
prerequisite of any instance construction — is never produced. -/
theorem duplicate_field_declaration_errors (n : String)
    (decls : List FieldDecl) (hdup : ¬ (decls.map FieldDecl.name).Nodup) :
    ∃ e, declareType n decls = Except.error e := by
  cases h : declareType n decls with
  | error e => exact ⟨e, rfl⟩
  | ok ty =>
    exfalso
    have := declareFieldsGo_ok_nodup decls (StructType.mk n []) ty h (by simp)
    simp at this
    exact hdup this

/-- Witness for C7: registering two fields both named x errors out. -/
theorem duplicate_field_declaration_errors_witness :
    ∃ e, declareType ("T") dupDecls = Except.error e :=
  duplicate_field_declaration_errors ("T") dupDecls (by decide)

/-- Whenever rebuilding the field list succeeds, the result carries the same
field names in the same order and every field not named in the updates is
carried over unchanged. -/
theorem copyFields_ok_preserves (valid : Bool) (ty : StructType)
    (updates : List (String × Value)) :
    ∀ (fields fs : EntryList),
      copyFields valid ty updates fields = Except.ok fs →
      fs.toList.map Prod.fst = fields.toList.map Prod.fst ∧
      ∀ n v, (n, v) ∈ fields.toList → lookupArg updates n = none →
        (n, v) ∈ fs.toList
  | EntryList.nil, fs => fun h => by
    simp [copyFields] at h
    subst h
    simp [EntryList.toList]
  | EntryList.cons m o rest, fs => fun h => by
    cases hlu : lookupArg updates m with
    | none =>
      simp only [copyFields, hlu] at h
      cases hcr : copyFields valid ty updates rest with
      | error e => rw [hcr] at h; simp at h
      | ok rest2 =>
        rw [hcr] at h
        simp at h
        subst h
        obtain ⟨hshape, hmem⟩ :=
          copyFields_ok_preserves valid ty updates rest rest2 hcr
        constructor
        · simp [EntryList.toList, hshape]
        · intro n v hv hnone
          simp only [EntryList.toList, List.mem_cons] at hv ⊢
          rcases hv with hv | hv
          · exact Or.inl hv
          · exact Or.inr (hmem n v hv hnone)
    | some w =>
      cases hfd : ty.fields.find? (fun fd => fd.name == m) with
      | none => simp [copyFields, hlu, hfd] at h
      | some d =>
        cases hav : applyValidator valid d w with
        | error e => simp [copyFields, hlu, hfd, hav] at h
        | ok v2 =>
          simp only [copyFields, hlu, hfd, hav] at h
          cases hcr : copyFields valid ty updates rest with
          | error e => rw [hcr] at h; simp at h
          | ok rest2 =>
            rw [hcr] at h
            simp at h
            subst h
            obtain ⟨hshape, hmem⟩ :=
              copyFields_ok_preserves valid ty updates rest rest2 hcr
            constructor
            · simp [EntryList.toList, hshape]
            · intro n v hv hnone
              simp only [EntryList.toList, List.mem_cons] at hv ⊢
              rcases hv with hv | hv
              · rw [Prod.mk.injEq] at hv
                obtain ⟨h1, h2⟩ := hv
                subst h1
                rw [hlu] at hnone
                exact absurd hnone (by simp)
              · exact Or.inr (hmem n v hv hnone)

/-- C8: structural immutability of the update engine: every operation is a
pure function of its inputs, so no existing instance is ever altered; in
particular a successful copy_with yields a fresh instance of the same
declared type with the same field names in the same order, in which every
field not named in the updates is carried over exactly; a failed operation
returns an error and produces no instance at all. -/
theorem copy_with_never_mutates (reg : Registry) (valid : Bool)
    (tyName : String) (fields : EntryList) (updates : List (String × Value))
    (out : Value)
    (h : copied_with reg valid (Value.declared tyName fields) updates =
      Except.ok out) :
    ∃ fs, out = Value.declared tyName fs ∧
      fs.toList.map Prod.fst = fields.toList.map Prod.fst ∧
      ∀ n v, (n, v) ∈ fields.toList → lookupArg updates n = none →
        (n, v) ∈ fs.toList := by
  simp only [copied_with] at h
  cases hreg : reg tyName with
  | none => rw [hreg] at h; simp at h
  | some ty =>
    rw [hreg] at h
    cases hall :
        updates.all (fun u => ty.fields.any (fun fd => fd.name == u.1)) with
    | false => simp [hall] at h
    | true =>
      simp only [hall, if_true] at h
      cases hcf : copyFields valid ty updates fields with
      | error e => rw [hcf] at h; simp at h
      | ok fs =>
        rw [hcf] at h
        simp at h
        obtain ⟨hshape, hmem⟩ :=
          copyFields_ok_preserves valid ty updates fields fs hcf
        exact ⟨fs, h.symm, hshape, hmem⟩

/-- Witness for C8: updating Checked(a=1, q=2) with a=5 yields a new
instance with the same field names and q carried over unchanged. -/
theorem copy_with_never_mutates_witness :
    ∃ fs, Value.declared ("Checked")
        (EntryList.ofList [("a", intV 5), ("q", intV 2)]) =
          Value.declared ("Checked") fs ∧
      fs.toList.map Prod.fst = checkFields.toList.map Prod.fst ∧
      ∀ n v, (n, v) ∈ checkFields.toList →
        lookupArg [("a", intV 5)] n = none → (n, v) ∈ fs.toList :=
  copy_with_never_mutates checkReg true ("Checked") checkFields
    [("a", intV 5)]
    (Value.declared ("Checked")
      (EntryList.ofList [("a", intV 5), ("q", intV 2)])) rfl

/-- With properties included, visiting the leaf-valued fields of a declared
composite logs one visit per stored field, keyed by the field name, in
stored (declaration) order — properties and attributes interleaved exactly
as declared. -/
theorem foreachFields_decl_order (cfg : MapConfig) (t : Trace)
    (ty : StructType) (hip : cfg.includeProps = true) :
    ∀ fields : EntryList,
      fields.toList.all (fun p => isLeafValue p.2) = true →
      fields.toList.all
        (fun p => (ty.fields.find? (fun fd => fd.name == p.1)).isSome) =
        true →
      (foreachFields cfg t ty fields).map Trace.key =
        fields.toList.map (fun p => some (Key.name p.1))
  | EntryList.nil => fun _ _ => by simp [foreachFields, EntryList.toList]
  | EntryList.cons n v rest => fun hl hc => by
    simp only [EntryList.toList, List.all_cons, Bool.and_eq_true] at hl hc
    obtain ⟨hl1, hl2⟩ := hl
    obtain ⟨hc1, hc2⟩ := hc
    obtain ⟨d, hd⟩ := Option.isSome_iff_exists.mp hc1
    have ih := foreachFields_decl_order cfg t ty hip rest hl2 hc2
    cases v with
    | leaf l =>
      simp only [foreachFields, hd, hip]
      cases hk : d.kind with
      | prop =>
        cases hcr : cfg.recursive <;>
          simp [hk, hip, hcr, foreachTraces_leaf, Trace.ofCtx,
            EntryList.toList, ih, Trace.key]
      | attr =>
        cases hcr : cfg.recursive <;>
          simp [hk, hcr, foreachTraces_leaf, Trace.ofCtx, EntryList.toList,
            ih, Trace.key]
    | list items => simp [isLeafValue] at hl1
    | tuple items => simp [isLeafValue] at hl1
    | objArray items => simp [isLeafValue] at hl1
    | dict entries => simp [isLeafValue] at hl1
    | declared a b => simp [isLeafValue] at hl1

/-- C10: traversing a declared composite with include_properties=True visits
its fields in declaration order, properties interleaved among attributes in
that same order: the logged keys are exactly the stored field names in
order. -/
theorem include_properties_declaration_order (reg : Registry)
    (tyName : String) (ty : StructType) (fields : EntryList)
    (hreg : reg tyName = some ty)
    (hleaves : fields.toList.all (fun p => isLeafValue p.2) = true)
    (hcov : fields.toList.all
      (fun p => (ty.fields.find? (fun fd => fd.name == p.1)).isSome) =
      true) :
    (foreachTraces (MapConfig.mk reg true true (fun _ => false) true)
        (Value.declared tyName fields) none).map Trace.key =
      fields.toList.map (fun p => some (Key.name p.1)) := by
  rw [foreachTraces.eq_def]
  simp only [isLeafNode, classify, hreg, isLeafKind, Bool.or_false]
  exact foreachFields_decl_order
    (MapConfig.mk reg true true (fun _ => false) true)
    (Trace.ofCtx (Value.declared tyName fields) none) ty rfl fields
    hleaves hcov

/-- Witness for C10: the grid instance is visited under
include_properties=True in declaration order box, data, name, bounds, tags,
age — the data attribute interleaved among the properties, not hoisted
first. -/
theorem include_properties_declaration_order_witness :
    (foreachTraces cfgGridProps (Value.declared ("Grid") gridFields)
          none).map Trace.key =
        gridFields.toList.map (fun p => some (Key.name p.1)) ∧
      gridFields.toList.map (fun p => some (Key.name p.1)) =
        [some (Key.name ("box")), some (Key.name ("data")),
         some (Key.name ("name")), some (Key.name ("bounds")),
         some (Key.name ("tags")), some (Key.name ("age"))] ∧
      gridFields.toList.map (fun p => some (Key.name p.1)) ≠
        [some (Key.name ("data")), some (Key.name ("box")),
         some (Key.name ("name")), some (Key.name ("bounds")),
         some (Key.name ("tags")), some (Key.name ("age"))] :=
  ⟨include_properties_declaration_order gridReg ("Grid") gridTy gridFields
      rfl rfl rfl,
    rfl, by decide⟩
